import Mathlib

/-!
Verification development for the oread-companion conversation request
lifecycle: the browser-side request coordinator (`EmotionChatbot` in the
frontend chat script), the streaming protocol codec
(`processStreamingResponse`), and the chat route handlers
(`backend/src/routes/chat.js`).  Each definition is a shallow embedding of
the corresponding JavaScript source; strings are modelled as `List Char`
(the shared wire text is ASCII), JavaScript numbers as `Nat`, and thrown
exceptions as `Except`.
-/

set_option linter.unusedVariables false

/-! ## Request identifiers (frontend chat script, `generateRequestId`)

`generateRequestId` builds the id string
`sessionId-selectedCharacter-counter-Date.now()`; we model the id as the
quadruple of its four components.  `character` is `Option String` because
`this.selectedCharacter` may be `null`. -/

structure RequestId where
  sessionId : String
  character : Option String
  counter : Nat
  issuedAt : Nat
  deriving DecidableEq, Repr

/-! ## Client request coordinator state

Mirrors the mutable fields of `EmotionChatbot` that the request lifecycle
touches, plus observation logs (`aborted`, `cancelNotified`, `scheduled`,
`rendered`) recording the externally visible effects: `abort()` calls on
the pending `AbortController`, best-effort `POST /api/chat/cancel`
notifications, `setTimeout` render closures created after the first
staleness check, and `addMessage(..., 'bot')` renderings. -/

structure ClientState where
  sessionId : String
  selectedCharacter : Option String
  requestCounter : Nat
  latestRequestId : Option RequestId
  pendingRequestId : Option RequestId
  pendingAbortController : Bool
  isTyping : Bool
  aborted : List RequestId
  cancelNotified : List RequestId
  scheduled : List RequestId
  rendered : List RequestId
  deriving DecidableEq, Repr

def initClient (sid : String) (char : Option String) : ClientState :=
  { sessionId := sid, selectedCharacter := char, requestCounter := 0,
    latestRequestId := none, pendingRequestId := none,
    pendingAbortController := false, isTyping := false,
    aborted := [], cancelNotified := [], scheduled := [], rendered := [] }

/-- `generateRequestId()`: increments `this.requestCounter`, builds the id
from the session id, the selected character, the new counter value and the
current time, and stores it in `this.latestRequestId`. -/
def generateRequestId (now : Nat) (s : ClientState) : ClientState × RequestId :=
  let c := s.requestCounter + 1
  let rid : RequestId :=
    { sessionId := s.sessionId, character := s.selectedCharacter,
      counter := c, issuedAt := now }
  ({ s with requestCounter := c, latestRequestId := some rid }, rid)

/-- `cancelPendingRequest()`: when both `this.pendingAbortController` and
`this.pendingRequestId` are set, aborts the HTTP request, fires the
best-effort cancel notification (whose failure is swallowed), and nulls
both fields; otherwise a no-op. -/
def cancelPendingRequest (s : ClientState) : ClientState :=
  match s.pendingRequestId, s.pendingAbortController with
  | some rid, true =>
      { s with aborted := s.aborted ++ [rid],
               cancelNotified := s.cancelNotified ++ [rid],
               pendingAbortController := false,
               pendingRequestId := none }
  | _, _ => s

/-- The body of `sendMessage` up to issuing the network request (common to
`sendMessageBlocking` and `sendMessageStreaming`): `cancelPendingRequest()`
first, then `setTyping(true)`, then `generateRequestId()`, then the new
abort controller and pending id are installed for the new request. -/
def sendStart (now : Nat) (s : ClientState) : ClientState × RequestId :=
  let s1 := cancelPendingRequest s
  let s2 := { s1 with isTyping := true }
  let (s3, rid) := generateRequestId now s2
  ({ s3 with pendingAbortController := true, pendingRequestId := some rid }, rid)

/-- `sendMessageBlocking`, on HTTP success for request `rid`: clears the
pending handle only if `this.pendingRequestId === requestId`, then applies
the first staleness check (`isStaleResponse`); a fresh response schedules
the smoothing `setTimeout` closure, a stale one is discarded with
`hideTypingIndicator(); setTyping(false)`. -/
def onBlockingArrive (s : ClientState) (rid : RequestId) : ClientState :=
  let s1 := if s.pendingRequestId = some rid then
      { s with pendingAbortController := false, pendingRequestId := none }
    else s
  if s1.latestRequestId = some rid then
    { s1 with scheduled := s1.scheduled ++ [rid] }
  else
    { s1 with isTyping := false }

/-- The smoothing `setTimeout` callback for request `rid` firing (only
exists if the first check passed, i.e. `rid` was scheduled): re-checks
staleness; if still fresh it renders and resets the typing flag, while a
now-stale response returns before `hideTypingIndicator`, leaving
`isTyping` untouched. -/
def onSmoothingTimeout (s : ClientState) (rid : RequestId) : ClientState :=
  if rid ∈ s.scheduled then
    let s1 := { s with scheduled := s.scheduled.erase rid }
    if s1.latestRequestId = some rid then
      { s1 with rendered := s1.rendered ++ [rid], isTyping := false }
    else s1
  else s

/-- `sendMessageBlocking`'s catch path for request `rid` (abort or network
failure): clears the pending handle only under the same id guard,
rethrows, and `sendMessage`'s catch resets the typing flag. -/
def onBlockingError (s : ClientState) (rid : RequestId) : ClientState :=
  let s1 := if s.pendingRequestId = some rid then
      { s with pendingAbortController := false, pendingRequestId := none }
    else s
  { s1 with isTyping := false }

/-- `sendMessageStreaming`'s `onDone` callback for request `rid`: guarded
clear of the pending handle, staleness check, then render on freshness. -/
def onStreamDone (s : ClientState) (rid : RequestId) : ClientState :=
  let s1 := if s.pendingRequestId = some rid then
      { s with pendingAbortController := false, pendingRequestId := none }
    else s
  if s1.latestRequestId = some rid then
    { s1 with rendered := s1.rendered ++ [rid], isTyping := false }
  else
    { s1 with isTyping := false }

/-- `sendMessageStreaming`'s catch path: guarded clear, rethrow, typing
flag reset by `sendMessage`'s catch. -/
def onStreamError (s : ClientState) (rid : RequestId) : ClientState :=
  let s1 := if s.pendingRequestId = some rid then
      { s with pendingAbortController := false, pendingRequestId := none }
    else s
  { s1 with isTyping := false }

/-- Events that drive the coordinator within one tab's event loop. -/
inductive ClientEvent where
  | send (now : Nat)
  | blockingArrive (rid : RequestId)
  | smoothingTimeout (rid : RequestId)
  | blockingError (rid : RequestId)
  | streamDone (rid : RequestId)
  | streamError (rid : RequestId)
  deriving DecidableEq, Repr

/-- One step of the coordinator.  A `send` event only runs its body when
the `sendMessage` entry guard (`!message || this.isTyping ||
!this.isConnected`) lets it through; the message-nonempty and
connectivity parts of the guard are preconditions of the event itself. -/
def clientStep (s : ClientState) : ClientEvent → ClientState
  | .send now => if s.isTyping then s else (sendStart now s).1
  | .blockingArrive rid => onBlockingArrive s rid
  | .smoothingTimeout rid => onSmoothingTimeout s rid
  | .blockingError rid => onBlockingError s rid
  | .streamDone rid => onStreamDone s rid
  | .streamError rid => onStreamError s rid

def clientRun (s : ClientState) (es : List ClientEvent) : ClientState :=
  es.foldl clientStep s

/-- States reachable from a freshly constructed `EmotionChatbot`. -/
def ClientReachable (s : ClientState) : Prop :=
  ∃ sid char es, clientRun (initClient sid char) es = s

/-! ## Streaming protocol codec (frontend `processStreamingResponse`)

The decoder accumulates decoded text in `buffer`, splits on the double
line break `"\n\n"`, keeps the trailing (possibly partial) piece as the
new buffer, and processes each complete event block.  We model the text
as `List Char` (`TextDecoder` with `stream: true` already reassembles
split code points, so the char level is the wire level here). -/

def isWS (c : Char) : Bool := c = ' ' || c = '\n' || c = '\t' || c = '\r'

def isPunct (c : Char) : Bool := c = '.' || c = '!' || c = '?'

/-- `leadsWith pat l` models JavaScript `l.startsWith(pat)`. -/
def leadsWith : List Char → List Char → Bool
  | [], _ => true
  | _ :: _, [] => false
  | p :: ps, c :: cs => p = c && leadsWith ps cs

/-- `containsSub pat l` models JavaScript `l.includes(pat)`. -/
def containsSub (pat : List Char) : List Char → Bool
  | [] => leadsWith pat []
  | c :: cs => leadsWith pat (c :: cs) || containsSub pat cs

/-- Drop trailing whitespace (the tail half of JavaScript `trim()`). -/
def dropTrailWS : List Char → List Char
  | [] => []
  | c :: cs =>
    match dropTrailWS cs with
    | [] => if isWS c then [] else [c]
    | r => c :: r

/-- JavaScript `String.prototype.trim`. -/
def trimJS (l : List Char) : List Char := dropTrailWS (l.dropWhile isWS)

/-- `split('\n')` on an event block, yielding its header lines. -/
def splitOnNL : List Char → List (List Char)
  | [] => [[]]
  | c :: cs =>
    if c = '\n' then [] :: splitOnNL cs
    else
      match splitOnNL cs with
      | [] => [[c]]
      | p :: ps => (c :: p) :: ps

/-- Prepend a character to the first piece of a split result. -/
def consHead (a : Char) : List (List Char) → List (List Char)
  | [] => [[a]]
  | p :: ps => (a :: p) :: ps

/-- JavaScript `buffer.split('\n\n')`: left-to-right scan for the
two-character separator, as performed by `String.prototype.split` with a
multi-character separator. -/
def splitOnNN : List Char → List (List Char)
  | [] => [[]]
  | [a] => [[a]]
  | a :: b :: rest =>
    if a = '\n' ∧ b = '\n' then [] :: splitOnNN rest
    else consHead a (splitOnNN (b :: rest))

/-- One `reader.read()` iteration: append the chunk to the carried
buffer, split on `"\n\n"`, keep the trailing partial block as the new
buffer (`lines.pop() || ''`) and emit the complete blocks. -/
def feedStep : (List Char × List (List Char)) → List Char → (List Char × List (List Char))
  | (buf, blocks), chunk =>
    let parts := splitOnNN (buf ++ chunk)
    (parts.getLastD [], blocks ++ parts.dropLast)

/-- Run the framing layer over a whole sequence of read chunks, starting
from the empty buffer, returning the final carried buffer and the
complete event blocks in emission order. -/
def feedAll (chunks : List (List Char)) : List Char × List (List Char) :=
  chunks.foldl feedStep ([], [])

def decodeBlocks (chunks : List (List Char)) : List (List Char) :=
  (feedAll chunks).2

/-- `event:`/`data:` header extraction from one block: iterate over the
lines; an `event:` line overwrites the event type (default `message`),
a `data:` line overwrites the data payload (default empty), both
trimmed after dropping the prefix (`substring(6)` / `substring(5)`). -/
def parseHeaderLines (lines : List (List Char)) : List Char × List Char :=
  lines.foldl
    (fun acc line =>
      if leadsWith ("event:".toList) line then (trimJS (line.drop 6), acc.2)
      else if leadsWith ("data:".toList) line then (acc.1, trimJS (line.drop 5))
      else acc)
    ("message".toList, [])

/-- Observable outcome of the event-processing loop: the `messageData`
local, the `onMessage`/`onDone` callback invocation logs, and the number
of times the `catch (parseError)` handler ran. -/
structure CodecRun (α : Type) where
  messageData : Option α
  onMessageCalls : List α
  onDoneCalls : List α
  loggedParseErrors : Nat
  deriving DecidableEq, Repr

def codecInit {α : Type} : CodecRun α :=
  { messageData := none, onMessageCalls := [], onDoneCalls := [],
    loggedParseErrors := 0 }

/-- The body of the inner `try` for one event block: `JSON.parse` (the
external builtin, abstracted as `parse`; a parse failure is a thrown
exception) followed by the `eventType` dispatch.  Note the `error` frame
branch `throw new Error(data.message || 'Server error')` sits inside this
same `try`, so it surfaces here as an `Except.error`. -/
def frameTryBody {α : Type} (parse : List Char → Option α) (st : CodecRun α)
    (etype edata : List Char) : Except (List Char) (CodecRun α) :=
  match parse edata with
  | none => .error ("JSON parse failure".toList)
  | some d =>
    if etype = "connected".toList then .ok st
    else if etype = "message".toList then
      .ok { st with messageData := some d,
                    onMessageCalls := st.onMessageCalls ++ [d] }
    else if etype = "done".toList then
      match st.messageData with
      | some m => .ok { st with onDoneCalls := st.onDoneCalls ++ [m] }
      | none => .ok st
    else if etype = "error".toList then .error ("Server error".toList)
    else .ok st

/-- Processing of one complete event block: skip blank blocks
(`!eventBlock.trim()`), extract headers, then run the inner `try`; any
exception — a `JSON.parse` failure or the thrown server-`error` — is
caught by the same `catch (parseError)`, logged, and the loop continues. -/
def processBlock {α : Type} (parse : List Char → Option α) (st : CodecRun α)
    (block : List Char) : CodecRun α :=
  if trimJS block = [] then st
  else
    let hd := parseHeaderLines (splitOnNL block)
    match frameTryBody parse st hd.1 hd.2 with
    | .ok st2 => st2
    | .error _ => { st with loggedParseErrors := st.loggedParseErrors + 1 }

/-- The whole of `processStreamingResponse` over a finished stream of
read chunks: frame reassembly then the per-block loop.  The function is
total — no exception can escape the loop, because every throwing
construct of the loop body lies inside the inner `try`. -/
def processStream {α : Type} (parse : List Char → Option α)
    (chunks : List (List Char)) : CodecRun α :=
  (decodeBlocks chunks).foldl (processBlock parse) codecInit

/-- A block that decodes (headers parse, payload parses, block not blank)
to an event of type `t`. -/
def decodesAs {α : Type} (parse : List Char → Option α) (block : List Char)
    (t : List Char) : Bool :=
  !(decide (trimJS block = [])) &&
    (parse (parseHeaderLines (splitOnNL block)).2).isSome &&
    decide ((parseHeaderLines (splitOnNL block)).1 = t)

/-! ## Cancel endpoint (`routes/chat.js`, `router.post('/chat/cancel')`)

The handler validates `requestId`, then evaluates `getInferenceClient()`.
The module's import list is `Router`, `chatRequestSchema`,
`getSessionManager`, `InputSanitizer` and `crypto`; `getInferenceClient`
is referenced at line 217 but never imported or defined, so evaluating it
throws a `ReferenceError` that is outside the inner `try` and lands in
the outer `catch`, which responds 500. -/

inductive CancelHttpResponse where
  | success (sessionId requestId : String)
  | badRequest
  | internalError (message : String)
  deriving DecidableEq, Repr

/-- Identifiers bound in the module scope of `routes/chat.js` (its imports
plus its own top-level declarations). -/
def chatJsModuleBindings : List String :=
  ["Router", "chatRequestSchema", "getSessionManager", "InputSanitizer",
   "crypto", "router", "getSessionId"]

/-- The `/chat/cancel` handler.  `engineCancel` is the outcome the
external inference client's `cancelRequest` would have (success, or a
rejection for an already-completed/unknown id); the inner `try` swallows
either outcome.  The `ReferenceError` raised by the unresolved
`getInferenceClient` identifier is modelled by the lookup against the
module bindings. -/
def cancelHandler (sessionId : String) (requestId : Option String)
    (engineCancel : Except String Unit) : CancelHttpResponse :=
  match requestId with
  | none => CancelHttpResponse.badRequest
  | some rid =>
    if chatJsModuleBindings.contains "getInferenceClient" then
      match engineCancel with
      | .ok _ => CancelHttpResponse.success sessionId rid
      | .error _ => CancelHttpResponse.success sessionId rid
    else
      CancelHttpResponse.internalError "getInferenceClient is not defined"

/-! ## Starter endpoint (`routes/chat.js`, `router.get('/chat/starter')`)
and the starter text post-processing block. -/

def sysMarker : List Char := "[System:".toList

def reqMarker : List Char := "REQUIREMENTS".toList

/-- `indexOf`-based truncation: everything strictly before the first
occurrence of `pat` (the whole string when `pat` does not occur). -/
def takeBefore (pat : List Char) : List Char → List Char
  | [] => []
  | c :: cs => if leadsWith pat (c :: cs) then [] else c :: takeBefore pat cs

def apostrophe : Char := Char.ofNat 39

def starterTail : List Char := ". How are you doing today?".toList

/-- The deterministic fallback greeting
`Hello! I'm CHARACTER. How are you doing today?`. -/
def fallbackGreeting (name : List Char) : List Char :=
  "Hello! I".toList ++ [apostrophe] ++ "m ".toList ++ name ++ starterTail

/-- `replace(/\s*\]\s*([.!?]*)$/, '$1')`: if the string ends with a `]`
followed only by whitespace and trailing `.`/`!`/`?` punctuation, remove
the bracket and the surrounding whitespace, keeping the punctuation. -/
def applyTailRegex (s : List Char) : List Char :=
  match (s.reverse.dropWhile isPunct).dropWhile isWS with
  | c :: r2 =>
    if c = ']' then ((r2.dropWhile isWS).reverse) ++ (s.reverse.takeWhile isPunct).reverse
    else s
  | [] => s

/-- First clean-up block: if the response contains a leaked `[System:`
marker, keep only the (trimmed) text before its first occurrence. -/
def stripSys (raw : List Char) : List Char :=
  if containsSub sysMarker raw then trimJS (takeBefore sysMarker raw) else raw

/-- Second block: substitute the fallback greeting when the cleaned text
is empty (falsy), still contains `REQUIREMENTS`, or is shorter than 10
characters. -/
def fallbackOr (name c1 : List Char) : List Char :=
  if c1 = [] ∨ containsSub reqMarker c1 = true ∨ c1.length < 10
  then fallbackGreeting name else c1

/-- Third block: `endsWith(']')` followed by `slice(0, -1).trim()`. -/
def bracketTrim (c2 : List Char) : List Char :=
  if c2.getLastD ' ' = ']' then trimJS c2.dropLast else c2

/-- The starter clean-up pipeline (`routes/chat.js` lines 324-345) in
source order: marker stripping, fallback substitution, trailing-bracket
removal, tail regex replacement. -/
def cleanStarter (raw name : List Char) : List Char :=
  applyTailRegex (bracketTrim (fallbackOr name (stripSys raw)))

/-- Modelled from the spec: the Starter Activation Gate of
`sessionManager` (`needsStarter` / `markStarterShown`, section 4.4) is not
part of the sources at hand — only its callers in `routes/chat.js` are.
Per character the gate is `{not-yet-shown, shown}` with initial state
`not-yet-shown`; all sessions that select the same character share it. -/
inductive StarterGate where
  | notShown
  | shown
  deriving DecidableEq, Repr

/-- Modelled from the spec: `needsStarter(characterName)` — true exactly
in the `not-yet-shown` state. -/
def needsStarter : StarterGate → Bool
  | .notShown => true
  | .shown => false

/-- Modelled from the spec: `markStarterShown(characterName)` — moves the
character's gate to `shown`; it never automatically reverts. -/
def markStarterShown (_ : StarterGate) : StarterGate := .shown

/-- The `/chat/starter` success JSON.  The generated-starter response
carries no `skipStarter` key at all; an absent key reads back as a falsy
`undefined`, modelled as `false`. -/
structure StarterResponse where
  starter : Option (List Char)
  skipStarter : Bool
  deriving DecidableEq, Repr

/-- The `/chat/starter` handler for one character: when the gate says the
starter was already shown and `force` is absent, reply
`{starter: null, skipStarter: true}` without generating; otherwise run
the generation (`gen` is `chatbot.processMessage`'s outcome — a thrown
error becomes the 500 of the route's `catch`), clean the text, mark the
gate shown, and return the cleaned starter. -/
def starterHandler (gate : StarterGate) (force : Bool) (name : List Char)
    (gen : Except (List Char) (List Char)) :
    Except (List Char) (StarterResponse × StarterGate) :=
  if !force && !(needsStarter gate) then
    .ok ({ starter := none, skipStarter := true }, gate)
  else
    match gen with
    | .error e => .error e
    | .ok raw =>
      .ok ({ starter := some (cleanStarter raw name), skipStarter := false },
           markStarterShown gate)

/-- Concrete stand-in for `JSON.parse` on the frames used in concrete
runs below: an empty `data` payload is a parse failure (as
`JSON.parse('')` throws), any other payload parses to itself. -/
def parseNonEmptyData (d : List Char) : Option (List Char) :=
  if d = [] then none else some d

/-- A finished wire stream whose frames are `connected` followed by an
`error` frame. -/
def connectedErrorStream : List Char :=
  ("event: connected\ndata: ok\n\nevent: error\ndata: boom\n\n").toList

/-! ## Invariants of the client coordinator -/

/-- Structural invariant of reachable coordinator states: the latest and
pending ids carry counters bounded by the session counter, and the abort
controller is held exactly while a request id is pending (the code sets
and clears the two fields together everywhere). -/
def GoodClient (s : ClientState) : Prop :=
  (∀ r, s.latestRequestId = some r → r.counter ≤ s.requestCounter)
  ∧ s.pendingAbortController = s.pendingRequestId.isSome
  ∧ (∀ r, s.pendingRequestId = some r → r.counter ≤ s.requestCounter)

/-- The latest pointer has moved past `X`: some strictly newer id is now
the session's latest. -/
def Overtaken (s : ClientState) (X : RequestId) : Prop :=
  ∃ Y, s.latestRequestId = some Y ∧ X.counter < Y.counter

/-! ## Claim C1: the cancel endpoint -/

/-- C1: the claim says every POST to `/chat/cancel` carrying a sessionId
and a requestId is answered with a success acknowledgment regardless of
the cancellation outcome.  On the code this fails: `getInferenceClient`
is not among the bindings of `routes/chat.js`, so the handler throws a
`ReferenceError` before reaching the inner try, and the outer catch
answers 500 for every such request — never the success acknowledgment.
The second conjunct evaluates the concrete run at sessionId `s1`,
requestId `r1`. -/
theorem cancel_endpoint_referenceerror :
    (∀ (sid rid : String) (eng : Except String Unit),
      cancelHandler sid (some rid) eng
        = CancelHttpResponse.internalError "getInferenceClient is not defined")
    ∧ cancelHandler "s1" (some "r1") (.ok ())
        = CancelHttpResponse.internalError "getInferenceClient is not defined" := by
  have h : "getInferenceClient" ∉ chatJsModuleBindings := by decide
  refine ⟨fun sid rid eng => ?_, ?_⟩
  · simp [cancelHandler, h]
  · simp [cancelHandler, h]

/-! ## Claim C9: `generateRequestId` -/

/-- C9: `generateRequestId` is total (a plain function of the state and
the clock), strictly advances the per-session counter, stores the new id
as the session's latest pointer, builds the id from the session id, the
active character, the counter and the issue timestamp, and two
successive calls in one session produce distinct ids strictly ordered by
their embedded counters. -/
theorem generateRequestId_total_and_ordered (s : ClientState) (now : Nat) :
    (generateRequestId now s).1.requestCounter = s.requestCounter + 1
    ∧ (generateRequestId now s).1.latestRequestId = some (generateRequestId now s).2
    ∧ (generateRequestId now s).2
        = { sessionId := s.sessionId, character := s.selectedCharacter,
            counter := s.requestCounter + 1, issuedAt := now }
    ∧ ∀ now2 : Nat,
        (generateRequestId now2 (generateRequestId now s).1).2.counter
            = (generateRequestId now s).2.counter + 1
        ∧ (generateRequestId now s).2.counter
            < (generateRequestId now2 (generateRequestId now s).1).2.counter
        ∧ (generateRequestId now2 (generateRequestId now s).1).2
            ≠ (generateRequestId now s).2 := by
  refine ⟨rfl, rfl, rfl, fun now2 => ⟨rfl, Nat.lt_succ_self _, fun h => ?_⟩⟩
  have hc := congrArg RequestId.counter h
  simp [generateRequestId] at hc

/-! ## Claim C10: pending-handle ownership -/

/-- C10: on every completion, error, or discard path of a request `rid`,
the pending abort controller and pending request id are cleared only
under the guard `this.pendingRequestId === requestId`; hence a late
response of an old request never clears the cancellation capability of a
newer in-flight request, while the owner's own completion does clear
it. -/
theorem pending_handle_ownership (s : ClientState) (rid r2 : RequestId) :
    (s.pendingRequestId = some r2 → r2 ≠ rid →
      ((onBlockingArrive s rid).pendingRequestId = some r2
        ∧ (onBlockingArrive s rid).pendingAbortController = s.pendingAbortController)
      ∧ ((onBlockingError s rid).pendingRequestId = some r2
        ∧ (onBlockingError s rid).pendingAbortController = s.pendingAbortController)
      ∧ ((onStreamDone s rid).pendingRequestId = some r2
        ∧ (onStreamDone s rid).pendingAbortController = s.pendingAbortController)
      ∧ ((onStreamError s rid).pendingRequestId = some r2
        ∧ (onStreamError s rid).pendingAbortController = s.pendingAbortController))
    ∧ (s.pendingRequestId = some rid →
      (onBlockingArrive s rid).pendingRequestId = none
      ∧ (onBlockingError s rid).pendingRequestId = none
      ∧ (onStreamDone s rid).pendingRequestId = none
      ∧ (onStreamError s rid).pendingRequestId = none) := by
  constructor
  · intro h hne
    have hcond : ¬(s.pendingRequestId = some rid) := by
      rw [h]
      simp only [Option.some.injEq]
      exact fun hh => hne hh
    refine ⟨⟨?_, ?_⟩, ⟨?_, ?_⟩, ⟨?_, ?_⟩, ⟨?_, ?_⟩⟩ <;>
      simp only [onBlockingArrive, onBlockingError, onStreamDone, onStreamError,
        if_neg hcond] <;>
      (try split) <;> simp [h]
  · intro h
    refine ⟨?_, ?_, ?_, ?_⟩ <;>
      simp only [onBlockingArrive, onBlockingError, onStreamDone, onStreamError,
        if_pos h] <;>
      (try split) <;> simp

/-- Witness for C10 at a concrete state: a newer request (counter 2) is
pending while the response of the older request (counter 1) arrives; the
pending id survives. -/
theorem pending_handle_ownership_witness :
    (onBlockingArrive
        { initClient "s" none with
            pendingRequestId :=
              some { sessionId := "s", character := none, counter := 2, issuedAt := 7 },
            pendingAbortController := true }
        { sessionId := "s", character := none, counter := 1, issuedAt := 3 }).pendingRequestId
      = some { sessionId := "s", character := none, counter := 2, issuedAt := 7 } :=
  (((pending_handle_ownership _ _ _).1 rfl (by decide)).1).1

/-! ## Claim C7: the starter-once gate -/

/-- C7: the starter endpoint answers `{starter, skipStarter}` with
`skipStarter = true` and `starter = null` exactly when the character's
gate is `shown` and `force` is absent; for two sessions freshly bound to
the same character, the first fetch returns a non-null starter and flips
the gate to `shown`, and the second fetch without `force` returns
`skipStarter: true, starter: null`.  (`needsStarter`/`markStarterShown`
are modelled from the spec, the `sessionManager` module being outside
the sources at hand.) -/
theorem starter_once (gate : StarterGate) (force : Bool) (name raw : List Char) :
    (∀ resp gate2,
        starterHandler gate force name (.ok raw) = .ok (resp, gate2) →
          ((resp.skipStarter = true ∧ resp.starter = none)
            ↔ (gate = .shown ∧ force = false)))
    ∧ starterHandler .notShown false name (.ok raw)
        = .ok ({ starter := some (cleanStarter raw name), skipStarter := false }, .shown)
    ∧ some (cleanStarter raw name) ≠ none
    ∧ (∀ raw2, starterHandler .shown false name (.ok raw2)
        = .ok ({ starter := none, skipStarter := true }, .shown)) := by
  refine ⟨?_, rfl, by simp, fun raw2 => rfl⟩
  intro resp gate2 h
  cases gate <;> cases force <;>
    simp [starterHandler, needsStarter, markStarterShown] at h <;>
    obtain ⟨h1, h2⟩ := h <;> subst h1 <;> simp

/-- Witness for C7: the gate already `shown`, no `force` — the response
is the skip acknowledgment, and the equivalence instantiates. -/
theorem starter_once_witness :
    ({ starter := none, skipStarter := true } : StarterResponse).skipStarter = true
    ∧ ({ starter := none, skipStarter := true } : StarterResponse).starter = none :=
  ((starter_once .shown false ("Echo".toList) ("hi there".toList)).1
      { starter := none, skipStarter := true } .shown rfl).mpr ⟨rfl, rfl⟩

/-! ## Split invariance of the framing layer (claim C5)

Auxiliary list lemmas, then: the left-to-right `split('\n\n')` scan
composes across chunk boundaries when the trailing piece is carried
forward, exactly as the decoder's buffer does. -/

theorem consHead_ne_nil (a : Char) (L : List (List Char)) : consHead a L ≠ [] := by
  cases L <;> simp [consHead]

theorem splitOnNN_ne_nil (l : List Char) : splitOnNN l ≠ [] := by
  induction l using splitOnNN.induct with
  | case1 => simp [splitOnNN]
  | case2 a => simp [splitOnNN]
  | case3 a b rest h ih => simp [splitOnNN, h]
  | case4 a b rest h ih =>
    simp only [splitOnNN, if_neg h]
    cases hs : splitOnNN (b :: rest) <;> simp [consHead]

theorem getLastD_irrel {α : Type} (l : List α) (h : l ≠ []) (d1 d2 : α) :
    l.getLastD d1 = l.getLastD d2 := by
  have hs : l.getLast?.isSome := List.getLast?_isSome.mpr h
  obtain ⟨y, hy⟩ := Option.isSome_iff_exists.mp hs
  simp [List.getLastD_eq_getLast?, hy]

theorem dropLast_cons_ne {α : Type} (x : α) (l : List α) (h : l ≠ []) :
    (x :: l).dropLast = x :: l.dropLast := by
  cases l with
  | nil => exact absurd rfl h
  | cons y ys => rfl

theorem dropLast_append_ne {α : Type} (A B : List α) (h : B ≠ []) :
    (A ++ B).dropLast = A ++ B.dropLast := by
  induction A with
  | nil => simp
  | cons a A ih =>
    have hAB : A ++ B ≠ [] := by
      intro hc
      exact h ((List.append_eq_nil.mp hc).2)
    rw [List.cons_append, dropLast_cons_ne _ _ hAB, ih, List.cons_append]

theorem getLastD_append_ne {α : Type} (A B : List α) (h : B ≠ []) (d : α) :
    (A ++ B).getLastD d = B.getLastD d := by
  induction A generalizing d with
  | nil => simp
  | cons a A ih =>
    have hAB : A ++ B ≠ [] := by
      intro hc
      exact h ((List.append_eq_nil.mp hc).2)
    rw [List.cons_append, List.getLastD_cons, ih a, getLastD_irrel B h a d]

theorem mem_getLastD {α : Type} (l : List α) (d : α) (h : l ≠ []) :
    l.getLastD d ∈ l := by
  induction l generalizing d with
  | nil => exact absurd rfl h
  | cons x xs ih =>
    cases xs with
    | nil => simp
    | cons y ys =>
      rw [List.getLastD_cons]
      exact List.mem_cons_of_mem x (ih x (by simp))

theorem cons_cons_split (a b : Char) (t : List Char) (h : ¬(a = '\n' ∧ b = '\n')) :
    splitOnNN (a :: b :: t) = consHead a (splitOnNN (b :: t)) := by
  simp [splitOnNN, h]

theorem nl_cons_cons_split (b : Char) (t : List Char) (h : b = '\n') :
    splitOnNN ('\n' :: b :: t) = [] :: splitOnNN t := by
  simp [splitOnNN, h]

theorem notnl_cons_split (a : Char) (v : List Char) (h : ¬ a = '\n') :
    splitOnNN (a :: v) = consHead a (splitOnNN v) := by
  cases v with
  | nil => simp [splitOnNN, consHead]
  | cons w ws =>
    rw [cons_cons_split a w ws (fun hc => h hc.1)]

theorem splitOnNN_head_shape (a : Char) (l : List Char) :
    (∃ t, splitOnNN (a :: l) = [] :: t ∧ a = '\n') ∨
    (∃ q t, splitOnNN (a :: l) = (a :: q) :: t) := by
  cases l with
  | nil => right; exact ⟨[], [], rfl⟩
  | cons b rest =>
    by_cases h : a = '\n' ∧ b = '\n'
    · left
      refine ⟨splitOnNN rest, ?_, h.1⟩
      rw [h.1, nl_cons_cons_split b rest h.2]
    · right
      rw [cons_cons_split a b rest h]
      obtain ⟨p, ps, hp⟩ : ∃ p ps, splitOnNN (b :: rest) = p :: ps := by
        cases hs : splitOnNN (b :: rest) with
        | nil => exact absurd hs (splitOnNN_ne_nil _)
        | cons p ps => exact ⟨p, ps, rfl⟩
      rw [hp]
      exact ⟨p, ps, rfl⟩

/-- Every piece emitted by the splitter is atomic: re-splitting it
yields the piece itself (it holds no `"\n\n"` separator). -/
theorem splitOnNN_piece_atomic : ∀ (l : List Char), ∀ p ∈ splitOnNN l, splitOnNN p = [p] := by
  intro l
  induction l using splitOnNN.induct with
  | case1 =>
    intro p hp
    simp [splitOnNN] at hp
    simp [hp, splitOnNN]
  | case2 a =>
    intro p hp
    simp [splitOnNN] at hp
    simp [hp, splitOnNN]
  | case3 a b rest h ih =>
    intro p hp
    obtain ⟨ha, hb⟩ := h
    rw [ha, hb] at hp
    rw [nl_cons_cons_split '\n' rest rfl] at hp
    rcases List.mem_cons.mp hp with h1 | h1
    · simp [h1, splitOnNN]
    · exact ih p h1
  | case4 a b rest h ih =>
    intro p hp
    rw [cons_cons_split a b rest h] at hp
    obtain ⟨p0, ps, hp0⟩ : ∃ p0 ps, splitOnNN (b :: rest) = p0 :: ps := by
      cases hs : splitOnNN (b :: rest) with
      | nil => exact absurd hs (splitOnNN_ne_nil _)
      | cons x xs => exact ⟨x, xs, rfl⟩
    rw [hp0] at hp
    simp only [consHead] at hp
    rcases List.mem_cons.mp hp with h1 | h1
    · subst h1
      have hat : splitOnNN p0 = [p0] := ih p0 (by rw [hp0]; exact List.mem_cons_self _ _)
      cases hp0c : p0 with
      | nil => simp [splitOnNN]
      | cons c p0t =>
        rcases splitOnNN_head_shape b rest with ⟨t, hsh, _⟩ | ⟨q, t, hsh⟩
        · rw [hp0, hp0c] at hsh
          simp at hsh
        · rw [hp0, hp0c] at hsh
          have hc : c = b ∧ p0t = q ∧ ps = t := by
            have := hsh
            simp only [List.cons.injEq] at this
            exact ⟨this.1.1, this.1.2, this.2⟩
          rw [cons_cons_split a c p0t (by rw [hc.1]; exact h)]
          rw [← hp0c, hat]
          simp [consHead, hp0c]
    · exact ih p (by rw [hp0]; exact List.mem_cons_of_mem _ h1)

/-- Splitting a concatenation: split the left part, carry its trailing
piece into the right part, and re-split — the exact shape of the
decoder's buffer handling. -/
theorem splitOnNN_append : ∀ (u v : List Char),
    splitOnNN (u ++ v)
      = (splitOnNN u).dropLast ++ splitOnNN ((splitOnNN u).getLastD [] ++ v) := by
  intro u
  induction u using splitOnNN.induct with
  | case1 =>
    intro v
    simp [splitOnNN]
  | case2 a =>
    intro v
    simp [splitOnNN]
  | case3 a b rest h ih =>
    intro v
    obtain ⟨ha, hb⟩ := h
    subst ha
    subst hb
    have hL := splitOnNN_ne_nil rest
    rw [show ('\n' :: '\n' :: rest) ++ v = '\n' :: '\n' :: (rest ++ v) from rfl]
    rw [nl_cons_cons_split _ _ rfl, nl_cons_cons_split _ _ rfl]
    rw [ih v]
    rw [dropLast_cons_ne _ _ hL]
    rw [List.getLastD_cons]
    simp [List.cons_append]
  | case4 a b rest h ih =>
    intro v
    rw [show (a :: b :: rest) ++ v = a :: b :: (rest ++ v) from rfl]
    rw [cons_cons_split a b (rest ++ v) h]
    rw [show (b : Char) :: (rest ++ v) = (b :: rest) ++ v from rfl]
    rw [ih v]
    rw [cons_cons_split a b rest h]
    obtain ⟨p, ps, hM⟩ : ∃ p ps, splitOnNN (b :: rest) = p :: ps := by
      cases hs : splitOnNN (b :: rest) with
      | nil => exact absurd hs (splitOnNN_ne_nil _)
      | cons x xs => exact ⟨x, xs, rfl⟩
    rw [hM]
    cases ps with
    | nil =>
      simp only [consHead, List.dropLast_single, List.getLastD_cons,
        List.getLastD_nil, List.nil_append]
      cases hp : p with
      | nil =>
        have hb : b = '\n' := by
          rcases splitOnNN_head_shape b rest with ⟨t, hsh, hbnl⟩ | ⟨q, t, hsh⟩
          · exact hbnl
          · rw [hM, hp] at hsh
            simp at hsh
        have ha : ¬ a = '\n' := fun hc => h ⟨hc, hb⟩
        rw [show ((a :: []) ++ v : List Char) = a :: v from rfl]
        rw [notnl_cons_split a v ha]
        cases hsv : splitOnNN v <;> simp [consHead, hsv]
      | cons c pt =>
        have hcb : c = b := by
          rcases splitOnNN_head_shape b rest with ⟨t, hsh, _⟩ | ⟨q, t, hsh⟩
          · rw [hM, hp] at hsh
            simp at hsh
          · rw [hM, hp] at hsh
            simp only [List.cons.injEq] at hsh
            exact hsh.1.1
        subst hp
        rw [show ((a :: c :: pt) ++ v : List Char) = a :: c :: (pt ++ v) from rfl]
        rw [cons_cons_split a c (pt ++ v) (by rw [hcb]; exact h)]
        rfl
    | cons p1 ps1 =>
      simp only [consHead]
      rw [dropLast_cons_ne p (p1 :: ps1) (by simp),
        dropLast_cons_ne (a :: p) (p1 :: ps1) (by simp)]
      simp only [List.getLastD_cons]
      rfl

/-- Folding the chunk feed from an atomic buffer equals one split of the
whole remaining input. -/
theorem feed_fold : ∀ (chunks : List (List Char)) (buf : List Char)
    (blocks : List (List Char)),
    splitOnNN buf = [buf] →
    chunks.foldl feedStep (buf, blocks)
      = ((splitOnNN (buf ++ chunks.flatten)).getLastD [],
          blocks ++ (splitOnNN (buf ++ chunks.flatten)).dropLast) := by
  intro chunks
  induction chunks with
  | nil =>
    intro buf blocks hbuf
    simp [hbuf]
  | cons c cs ih =>
    intro buf blocks hbuf
    rw [List.foldl_cons]
    have hstep : feedStep (buf, blocks) c
        = ((splitOnNN (buf ++ c)).getLastD [],
            blocks ++ (splitOnNN (buf ++ c)).dropLast) := rfl
    rw [hstep]
    have hne := splitOnNN_ne_nil (buf ++ c)
    have hatomic : splitOnNN ((splitOnNN (buf ++ c)).getLastD [])
        = [(splitOnNN (buf ++ c)).getLastD []] :=
      splitOnNN_piece_atomic _ _ (mem_getLastD _ _ hne)
    rw [ih _ _ hatomic]
    have hjoin : buf ++ (c :: cs).flatten = (buf ++ c) ++ cs.flatten := by
      simp [List.append_assoc]
    rw [hjoin, splitOnNN_append (buf ++ c) cs.flatten]
    have hQne := splitOnNN_ne_nil ((splitOnNN (buf ++ c)).getLastD [] ++ cs.flatten)
    rw [getLastD_append_ne _ _ hQne, dropLast_append_ne _ _ hQne]
    simp [List.append_assoc]

/-- C5: streaming reassembly is split-invariant — feeding the wire text
to the decoder in any partition into read chunks yields the same carried
buffer, the same complete event blocks, and hence the same decoded event
sequence (for any payload parser), as feeding it in one piece; only
blocks terminated by the double line break are processed, the trailing
partial block being carried in the buffer. -/
theorem streaming_reassembly_split_invariant (chunks : List (List Char)) :
    feedAll chunks = feedAll [chunks.flatten]
    ∧ decodeBlocks chunks = decodeBlocks [chunks.flatten]
    ∧ ∀ (α : Type) (parse : List Char → Option α),
        processStream parse chunks = processStream parse [chunks.flatten] := by
  have h1 : feedAll chunks
      = ((splitOnNN chunks.flatten).getLastD [], (splitOnNN chunks.flatten).dropLast) := by
    have := feed_fold chunks [] [] rfl
    simpa [feedAll] using this
  have h2 : feedAll [chunks.flatten]
      = ((splitOnNN chunks.flatten).getLastD [], (splitOnNN chunks.flatten).dropLast) := by
    have := feed_fold [chunks.flatten] [] [] rfl
    simpa [feedAll] using this
  have hfa : feedAll chunks = feedAll [chunks.flatten] := h1.trans h2.symm
  have hdb : decodeBlocks chunks = decodeBlocks [chunks.flatten] := by
    simp [decodeBlocks, hfa]
  exact ⟨hfa, hdb, fun α parse => by simp [processStream, hdb]⟩

/-! ## Event dispatch lemmas (claims C6 and C2) -/

/-- Shape of a non-throwing pass through the inner `try`: the state is
untouched, a `message` frame stores and reports the payload, or a `done`
frame fires `onDone` with the previously accumulated payload. -/
theorem frameTryBody_ok_shape {α : Type} (parse : List Char → Option α)
    (st : CodecRun α) (et ed : List Char) (st2 : CodecRun α)
    (h : frameTryBody parse st et ed = .ok st2) :
    (st2.onDoneCalls = st.onDoneCalls ∧ st2.onMessageCalls = st.onMessageCalls
      ∧ st2.messageData = st.messageData)
    ∨ (∃ d, parse ed = some d ∧ et = "message".toList
        ∧ st2 = { st with messageData := some d,
                          onMessageCalls := st.onMessageCalls ++ [d] })
    ∨ (∃ m, st.messageData = some m ∧ et = "done".toList
        ∧ st2 = { st with onDoneCalls := st.onDoneCalls ++ [m] }) := by
  unfold frameTryBody at h
  cases hp : parse ed with
  | none =>
    rw [hp] at h
    simp at h
  | some d =>
    rw [hp] at h
    split_ifs at h with h1 h2 h3 h4
    · simp only [Except.ok.injEq] at h
      subst h
      left
      exact ⟨rfl, rfl, rfl⟩
    · simp only [Except.ok.injEq] at h
      subst h
      right
      left
      exact ⟨d, rfl, h2, rfl⟩
    · cases hm : st.messageData with
      | none =>
        rw [hm] at h
        simp only [Except.ok.injEq] at h
        subst h
        left
        refine ⟨rfl, rfl, ?_⟩
        first
        | rfl
        | exact hm
      | some m =>
        rw [hm] at h
        simp only [Except.ok.injEq] at h
        subst h
        right
        right
        exact ⟨m, rfl, h3, rfl⟩
    all_goals
      first
      | (simp at h
         done)
      | (simp only [Except.ok.injEq] at h
         subst h
         left
         exact ⟨rfl, rfl, rfl⟩)

/-- A frame that the inner `try` completes on has a parsed payload. -/
theorem frameTryBody_ok_parses {α : Type} (parse : List Char → Option α)
    (st : CodecRun α) (et ed : List Char) (st2 : CodecRun α)
    (h : frameTryBody parse st et ed = .ok st2) : (parse ed).isSome := by
  unfold frameTryBody at h
  cases hp : parse ed with
  | none =>
    rw [hp] at h
    simp at h
  | some d => rfl

/-- Every block-processing step is either a blank-block skip, a caught
exception (with the header facts recording why), or a completed inner
`try`. -/
theorem processBlock_cases {α : Type} (parse : List Char → Option α)
    (st : CodecRun α) (b : List Char) :
    processBlock parse st b = st
    ∨ processBlock parse st b = { st with loggedParseErrors := st.loggedParseErrors + 1 }
    ∨ ∃ st2, trimJS b ≠ []
        ∧ frameTryBody parse st (parseHeaderLines (splitOnNL b)).1
            (parseHeaderLines (splitOnNL b)).2 = .ok st2
        ∧ processBlock parse st b = st2 := by
  by_cases htrim : trimJS b = []
  · left
    simp [processBlock, htrim]
  · cases hfb : frameTryBody parse st (parseHeaderLines (splitOnNL b)).1
        (parseHeaderLines (splitOnNL b)).2 with
    | ok st2 =>
      right
      right
      refine ⟨st2, htrim, ?_, ?_⟩
      · first
        | exact hfb
        | rfl
      · simp [processBlock, htrim, hfb]
    | error e =>
      right
      left
      simp [processBlock, htrim, hfb]

theorem processBlock_good {α : Type} (parse : List Char → Option α)
    (st : CodecRun α) (b : List Char)
    (h1 : ∀ m, st.messageData = some m → m ∈ st.onMessageCalls)
    (h2 : ∀ m ∈ st.onDoneCalls, m ∈ st.onMessageCalls) :
    (∀ m, (processBlock parse st b).messageData = some m →
        m ∈ (processBlock parse st b).onMessageCalls)
    ∧ (∀ m ∈ (processBlock parse st b).onDoneCalls,
        m ∈ (processBlock parse st b).onMessageCalls) := by
  rcases processBlock_cases parse st b with h | h | ⟨st2, htrim, hfb, h⟩
  · rw [h]
    exact ⟨h1, h2⟩
  · rw [h]
    exact ⟨h1, h2⟩
  · rw [h]
    rcases frameTryBody_ok_shape parse st _ _ st2 hfb with
      ⟨e1, e2, e3⟩ | ⟨d, hp, het, rfl⟩ | ⟨mm, hm, het, rfl⟩
    · rw [e1, e2, e3]
      exact ⟨h1, h2⟩
    · constructor
      · intro m hmm
        simp at hmm
        simp [hmm]
      · intro m hmm
        simp at hmm
        simp [h2 m hmm]
    · constructor
      · intro m hmm
        simp at hmm
        simpa using h1 m hmm
      · intro m hmm
        simp at hmm
        rcases hmm with hmm | hmm
        · simpa using h2 m hmm
        · subst hmm
          simpa using h1 m hm

theorem codec_fold_good {α : Type} (parse : List Char → Option α) :
    ∀ (blocks : List (List Char)) (st : CodecRun α),
    (∀ m, st.messageData = some m → m ∈ st.onMessageCalls) →
    (∀ m ∈ st.onDoneCalls, m ∈ st.onMessageCalls) →
    ∀ m ∈ (blocks.foldl (processBlock parse) st).onDoneCalls,
      m ∈ (blocks.foldl (processBlock parse) st).onMessageCalls := by
  intro blocks
  induction blocks with
  | nil =>
    intro st h1 h2
    exact h2
  | cons b bs ih =>
    intro st h1 h2
    rw [List.foldl_cons]
    obtain ⟨g1, g2⟩ := processBlock_good parse st b h1 h2
    exact ih _ g1 g2

theorem processBlock_no_done {α : Type} (parse : List Char → Option α)
    (st : CodecRun α) (b : List Char)
    (h : decodesAs parse b ("done".toList) = false) :
    (processBlock parse st b).onDoneCalls = st.onDoneCalls := by
  rcases processBlock_cases parse st b with hc | hc | ⟨st2, htrim, hfb, hc⟩
  · rw [hc]
  · rw [hc]
  · rw [hc]
    rcases frameTryBody_ok_shape parse st _ _ st2 hfb with
      ⟨e1, _, _⟩ | ⟨d, hp, het, rfl⟩ | ⟨mm, hm, het, rfl⟩
    · exact e1
    · rfl
    · exfalso
      have hps := frameTryBody_ok_parses parse st _ _ _ hfb
      simp [decodesAs, htrim, hps, het] at h

theorem processBlock_no_message {α : Type} (parse : List Char → Option α)
    (st : CodecRun α) (b : List Char)
    (hmd : st.messageData = none)
    (h : decodesAs parse b ("message".toList) = false) :
    (processBlock parse st b).messageData = none
    ∧ (processBlock parse st b).onDoneCalls = st.onDoneCalls := by
  rcases processBlock_cases parse st b with hc | hc | ⟨st2, htrim, hfb, hc⟩
  · rw [hc]
    exact ⟨hmd, rfl⟩
  · rw [hc]
    exact ⟨hmd, rfl⟩
  · rw [hc]
    rcases frameTryBody_ok_shape parse st _ _ st2 hfb with
      ⟨e1, _, e3⟩ | ⟨d, hp, het, rfl⟩ | ⟨mm, hm, het, rfl⟩
    · rw [e1, e3]
      exact ⟨hmd, rfl⟩
    · exfalso
      have hps := frameTryBody_ok_parses parse st _ _ _ hfb
      simp [decodesAs, htrim, hps, het] at h
    · rw [hmd] at hm
      exact absurd hm (by simp)

theorem codec_fold_no_done {α : Type} (parse : List Char → Option α) :
    ∀ (blocks : List (List Char)) (st : CodecRun α),
    (∀ b ∈ blocks, decodesAs parse b ("done".toList) = false) →
    (blocks.foldl (processBlock parse) st).onDoneCalls = st.onDoneCalls := by
  intro blocks
  induction blocks with
  | nil =>
    intro st _
    rfl
  | cons b bs ih =>
    intro st h
    rw [List.foldl_cons]
    rw [ih _ (fun x hx => h x (List.mem_cons_of_mem b hx))]
    exact processBlock_no_done parse st b (h b (List.mem_cons_self b bs))

theorem codec_fold_no_message {α : Type} (parse : List Char → Option α) :
    ∀ (blocks : List (List Char)) (st : CodecRun α),
    st.messageData = none →
    (∀ b ∈ blocks, decodesAs parse b ("message".toList) = false) →
    (blocks.foldl (processBlock parse) st).onDoneCalls = st.onDoneCalls := by
  intro blocks
  induction blocks with
  | nil =>
    intro st _ _
    rfl
  | cons b bs ih =>
    intro st hmd h
    rw [List.foldl_cons]
    obtain ⟨g1, g2⟩ := processBlock_no_message parse st b hmd (h b (List.mem_cons_self b bs))
    rw [ih _ g1 (fun x hx => h x (List.mem_cons_of_mem b hx)), g2]

/-- C6: done-only rendering — over any finished stream, (i) every
`onDone` invocation carries a payload that some earlier `message` frame
delivered, (ii) if no block decodes to a `done` event the `onDone`
callback never fires, and (iii) if no block decodes to a `message` event
the `onDone` callback never fires either. -/
theorem done_only_rendering {α : Type} (parse : List Char → Option α)
    (chunks : List (List Char)) :
    (∀ m ∈ (processStream parse chunks).onDoneCalls,
        m ∈ (processStream parse chunks).onMessageCalls)
    ∧ ((∀ b ∈ decodeBlocks chunks, decodesAs parse b ("done".toList) = false) →
        (processStream parse chunks).onDoneCalls = [])
    ∧ ((∀ b ∈ decodeBlocks chunks, decodesAs parse b ("message".toList) = false) →
        (processStream parse chunks).onDoneCalls = []) := by
  refine ⟨?_, ?_, ?_⟩
  · exact codec_fold_good parse (decodeBlocks chunks) codecInit (by simp [codecInit])
      (by simp [codecInit])
  · intro h
    exact (codec_fold_no_done parse (decodeBlocks chunks) codecInit h).trans rfl
  · intro h
    exact (codec_fold_no_message parse (decodeBlocks chunks) codecInit rfl h).trans rfl

/-- Witness for C6: a stream carrying a single `message` frame and no
`done` renders nothing. -/
theorem done_only_rendering_witness :
    (processStream parseNonEmptyData [("event: message\ndata: hi\n\n").toList]).onDoneCalls
      = [] :=
  (done_only_rendering parseNonEmptyData [("event: message\ndata: hi\n\n").toList]).2.1
    (by decide)

/-- C2: the `error` frame is thrown inside the same `try` whose `catch`
handles unparseable payloads, so the failure never leaves the
frame-decoding loop: on a `connected`-then-`error` stream the thrown
error is logged exactly like a parse failure, processing ends normally,
and no callback fires — `sendMessage`'s catch (which would show the
transient notice) is never reached. -/
theorem error_frame_swallowed_not_surfaced :
    frameTryBody parseNonEmptyData (codecInit : CodecRun (List Char))
        ("error".toList) ("boom".toList) = .error ("Server error".toList)
    ∧ processBlock parseNonEmptyData (codecInit : CodecRun (List Char))
        ("event: error\ndata: boom".toList)
        = { (codecInit : CodecRun (List Char)) with loggedParseErrors := 1 }
    ∧ processStream parseNonEmptyData [connectedErrorStream]
        = { messageData := none, onMessageCalls := [], onDoneCalls := [],
            loggedParseErrors := 1 } := by
  refine ⟨rfl, rfl, rfl⟩

/-! ## Step lemmas for the client coordinator (claims C3 and C4) -/

theorem sendStart_shape (s : ClientState) (now : Nat) :
    (sendStart now s).2
      = { sessionId := s.sessionId, character := s.selectedCharacter,
          counter := s.requestCounter + 1, issuedAt := now }
    ∧ (sendStart now s).1.requestCounter = s.requestCounter + 1
    ∧ (sendStart now s).1.latestRequestId = some (sendStart now s).2
    ∧ (sendStart now s).1.pendingRequestId = some (sendStart now s).2
    ∧ (sendStart now s).1.pendingAbortController = true
    ∧ (sendStart now s).1.rendered = s.rendered
    ∧ (sendStart now s).1.scheduled = s.scheduled
    ∧ (sendStart now s).1.isTyping = true
    ∧ (∀ r, s.pendingRequestId = some r → s.pendingAbortController = true →
        r ∈ (sendStart now s).1.aborted ∧ r ∈ (sendStart now s).1.cancelNotified) := by
  unfold sendStart generateRequestId cancelPendingRequest
  cases hp : s.pendingRequestId with
  | none => simp
  | some r0 =>
    cases hb : s.pendingAbortController <;> simp

theorem onBlockingArrive_shape (s : ClientState) (rid : RequestId) :
    ((onBlockingArrive s rid).requestCounter = s.requestCounter
    ∧ (onBlockingArrive s rid).latestRequestId = s.latestRequestId
    ∧ (onBlockingArrive s rid).rendered = s.rendered
    ∧ (onBlockingArrive s rid).sessionId = s.sessionId)
    ∧ ((onBlockingArrive s rid).pendingRequestId = s.pendingRequestId
        ∧ (onBlockingArrive s rid).pendingAbortController = s.pendingAbortController
      ∨ (onBlockingArrive s rid).pendingRequestId = none
        ∧ (onBlockingArrive s rid).pendingAbortController = false) := by
  unfold onBlockingArrive
  by_cases hp : s.pendingRequestId = some rid
  · simp only [if_pos hp]
    split <;> simp
  · simp only [if_neg hp]
    split <;> simp

theorem onBlockingError_shape (s : ClientState) (rid : RequestId) :
    ((onBlockingError s rid).requestCounter = s.requestCounter
    ∧ (onBlockingError s rid).latestRequestId = s.latestRequestId
    ∧ (onBlockingError s rid).rendered = s.rendered
    ∧ (onBlockingError s rid).scheduled = s.scheduled)
    ∧ ((onBlockingError s rid).pendingRequestId = s.pendingRequestId
        ∧ (onBlockingError s rid).pendingAbortController = s.pendingAbortController
      ∨ (onBlockingError s rid).pendingRequestId = none
        ∧ (onBlockingError s rid).pendingAbortController = false) := by
  unfold onBlockingError
  by_cases hp : s.pendingRequestId = some rid
  · simp only [if_pos hp]
    simp
  · simp only [if_neg hp]
    simp

theorem onStreamError_shape (s : ClientState) (rid : RequestId) :
    ((onStreamError s rid).requestCounter = s.requestCounter
    ∧ (onStreamError s rid).latestRequestId = s.latestRequestId
    ∧ (onStreamError s rid).rendered = s.rendered
    ∧ (onStreamError s rid).scheduled = s.scheduled)
    ∧ ((onStreamError s rid).pendingRequestId = s.pendingRequestId
        ∧ (onStreamError s rid).pendingAbortController = s.pendingAbortController
      ∨ (onStreamError s rid).pendingRequestId = none
        ∧ (onStreamError s rid).pendingAbortController = false) := by
  unfold onStreamError
  by_cases hp : s.pendingRequestId = some rid
  · simp only [if_pos hp]
    simp
  · simp only [if_neg hp]
    simp

theorem onStreamDone_shape (s : ClientState) (rid : RequestId) :
    ((onStreamDone s rid).requestCounter = s.requestCounter
    ∧ (onStreamDone s rid).latestRequestId = s.latestRequestId
    ∧ (onStreamDone s rid).scheduled = s.scheduled)
    ∧ ((onStreamDone s rid).pendingRequestId = s.pendingRequestId
        ∧ (onStreamDone s rid).pendingAbortController = s.pendingAbortController
      ∨ (onStreamDone s rid).pendingRequestId = none
        ∧ (onStreamDone s rid).pendingAbortController = false)
    ∧ ((onStreamDone s rid).rendered = s.rendered
      ∨ (onStreamDone s rid).rendered = s.rendered ++ [rid]
        ∧ s.latestRequestId = some rid) := by
  unfold onStreamDone
  by_cases hp : s.pendingRequestId = some rid
  · simp only [if_pos hp]
    split <;> rename_i hl <;> simp_all
  · simp only [if_neg hp]
    split <;> rename_i hl <;> simp_all

theorem onSmoothingTimeout_shape (s : ClientState) (rid : RequestId) :
    ((onSmoothingTimeout s rid).requestCounter = s.requestCounter
    ∧ (onSmoothingTimeout s rid).latestRequestId = s.latestRequestId
    ∧ (onSmoothingTimeout s rid).pendingRequestId = s.pendingRequestId
    ∧ (onSmoothingTimeout s rid).pendingAbortController = s.pendingAbortController)
    ∧ ((onSmoothingTimeout s rid).rendered = s.rendered
      ∨ (onSmoothingTimeout s rid).rendered = s.rendered ++ [rid]
        ∧ s.latestRequestId = some rid) := by
  unfold onSmoothingTimeout
  by_cases hs : rid ∈ s.scheduled
  · simp only [if_pos hs]
    split <;> rename_i hl <;> simp_all
  · simp only [if_neg hs]
    simp

theorem clientStep_counter_mono (s : ClientState) (e : ClientEvent) :
    s.requestCounter ≤ (clientStep s e).requestCounter := by
  cases e with
  | send now =>
    by_cases ht : s.isTyping
    · simp [clientStep, ht]
    · simp only [clientStep, if_neg ht]
      rw [(sendStart_shape s now).2.1]
      exact Nat.le_succ _
  | blockingArrive rid => exact le_of_eq ((onBlockingArrive_shape s rid).1.1).symm
  | smoothingTimeout rid => exact le_of_eq ((onSmoothingTimeout_shape s rid).1.1).symm
  | blockingError rid => exact le_of_eq ((onBlockingError_shape s rid).1.1).symm
  | streamDone rid => exact le_of_eq ((onStreamDone_shape s rid).1.1).symm
  | streamError rid => exact le_of_eq ((onStreamError_shape s rid).1.1).symm

theorem clientStep_good (s : ClientState) (e : ClientEvent) (h : GoodClient s) :
    GoodClient (clientStep s e) := by
  obtain ⟨h1, h2, h3⟩ := h
  cases e with
  | send now =>
    by_cases ht : s.isTyping
    · simpa [clientStep, ht] using ⟨h1, h2, h3⟩
    · simp only [clientStep, if_neg ht]
      obtain ⟨hid, hc, hl, hpe, hab, _⟩ := sendStart_shape s now
      refine ⟨?_, ?_, ?_⟩
      · intro r hr
        rw [hl, Option.some.injEq] at hr
        rw [hc, ← hr, hid]
      · rw [hab, hpe]
        rfl
      · intro r hr
        rw [hpe, Option.some.injEq] at hr
        rw [hc, ← hr, hid]
  | blockingArrive rid =>
    simp only [clientStep]
    obtain ⟨⟨hc, hl, _, _⟩, hpd⟩ := onBlockingArrive_shape s rid
    refine ⟨?_, ?_, ?_⟩
    · intro r hr
      rw [hl] at hr
      rw [hc]
      exact h1 r hr
    · rcases hpd with ⟨he1, he2⟩ | ⟨he1, he2⟩ <;> rw [he1, he2] <;> [exact h2; rfl]
    · intro r hr
      rcases hpd with ⟨he1, he2⟩ | ⟨he1, he2⟩ <;> rw [he1] at hr
      · rw [hc]
        exact h3 r hr
      · exact absurd hr (by simp)
  | smoothingTimeout rid =>
    simp only [clientStep]
    obtain ⟨⟨hc, hl, hpe, hab⟩, _⟩ := onSmoothingTimeout_shape s rid
    refine ⟨?_, ?_, ?_⟩
    · intro r hr
      rw [hl] at hr
      rw [hc]
      exact h1 r hr
    · rw [hab, hpe]
      exact h2
    · intro r hr
      rw [hpe] at hr
      rw [hc]
      exact h3 r hr
  | blockingError rid =>
    simp only [clientStep]
    obtain ⟨⟨hc, hl, _, _⟩, hpd⟩ := onBlockingError_shape s rid
    refine ⟨?_, ?_, ?_⟩
    · intro r hr
      rw [hl] at hr
      rw [hc]
      exact h1 r hr
    · rcases hpd with ⟨he1, he2⟩ | ⟨he1, he2⟩ <;> rw [he1, he2] <;> [exact h2; rfl]
    · intro r hr
      rcases hpd with ⟨he1, he2⟩ | ⟨he1, he2⟩ <;> rw [he1] at hr
      · rw [hc]
        exact h3 r hr
      · exact absurd hr (by simp)
  | streamDone rid =>
    simp only [clientStep]
    obtain ⟨⟨hc, hl, _⟩, hpd, _⟩ := onStreamDone_shape s rid
    refine ⟨?_, ?_, ?_⟩
    · intro r hr
      rw [hl] at hr
      rw [hc]
      exact h1 r hr
    · rcases hpd with ⟨he1, he2⟩ | ⟨he1, he2⟩ <;> rw [he1, he2] <;> [exact h2; rfl]
    · intro r hr
      rcases hpd with ⟨he1, he2⟩ | ⟨he1, he2⟩ <;> rw [he1] at hr
      · rw [hc]
        exact h3 r hr
      · exact absurd hr (by simp)
  | streamError rid =>
    simp only [clientStep]
    obtain ⟨⟨hc, hl, _, _⟩, hpd⟩ := onStreamError_shape s rid
    refine ⟨?_, ?_, ?_⟩
    · intro r hr
      rw [hl] at hr
      rw [hc]
      exact h1 r hr
    · rcases hpd with ⟨he1, he2⟩ | ⟨he1, he2⟩ <;> rw [he1, he2] <;> [exact h2; rfl]
    · intro r hr
      rcases hpd with ⟨he1, he2⟩ | ⟨he1, he2⟩ <;> rw [he1] at hr
      · rw [hc]
        exact h3 r hr
      · exact absurd hr (by simp)

theorem clientRun_good (s : ClientState) (es : List ClientEvent) (h : GoodClient s) :
    GoodClient (clientRun s es) := by
  induction es generalizing s with
  | nil => exact h
  | cons e es ih => exact ih (clientStep s e) (clientStep_good s e h)

theorem goodClient_init (sid : String) (char : Option String) :
    GoodClient (initClient sid char) := by
  refine ⟨?_, rfl, ?_⟩ <;> intro r hr <;> simp [initClient] at hr

theorem goodClient_reachable (s : ClientState) (h : ClientReachable s) : GoodClient s := by
  obtain ⟨sid, char, es, hrun⟩ := h
  rw [← hrun]
  exact clientRun_good _ es (goodClient_init sid char)

theorem clientStep_latest_advance (s : ClientState) (e : ClientEvent) (X : RequestId)
    (hb : ∀ r, s.latestRequestId = some r → r.counter ≤ s.requestCounter)
    (h : s.latestRequestId = some X) :
    (clientStep s e).latestRequestId = some X
    ∨ ∃ Y, (clientStep s e).latestRequestId = some Y ∧ X.counter < Y.counter
        ∧ (clientStep s e).requestCounter = s.requestCounter + 1 := by
  cases e with
  | send now =>
    by_cases ht : s.isTyping
    · left
      simpa [clientStep, ht] using h
    · right
      simp only [clientStep, if_neg ht]
      obtain ⟨hid, hc, hl, _⟩ := sendStart_shape s now
      refine ⟨(sendStart now s).2, hl, ?_, hc⟩
      rw [hid]
      exact Nat.lt_succ_of_le (hb X h)
  | blockingArrive rid =>
    left
    rw [show clientStep s (.blockingArrive rid) = onBlockingArrive s rid from rfl,
      (onBlockingArrive_shape s rid).1.2.1]
    exact h
  | smoothingTimeout rid =>
    left
    rw [show clientStep s (.smoothingTimeout rid) = onSmoothingTimeout s rid from rfl,
      (onSmoothingTimeout_shape s rid).1.2.1]
    exact h
  | blockingError rid =>
    left
    rw [show clientStep s (.blockingError rid) = onBlockingError s rid from rfl,
      (onBlockingError_shape s rid).1.2.1]
    exact h
  | streamDone rid =>
    left
    rw [show clientStep s (.streamDone rid) = onStreamDone s rid from rfl,
      (onStreamDone_shape s rid).1.2.1]
    exact h
  | streamError rid =>
    left
    rw [show clientStep s (.streamError rid) = onStreamError s rid from rfl,
      (onStreamError_shape s rid).1.2.1]
    exact h

theorem clientStep_rendered_src (s : ClientState) (e : ClientEvent) (X : RequestId)
    (h : X ∈ (clientStep s e).rendered) :
    X ∈ s.rendered ∨ s.latestRequestId = some X := by
  cases e with
  | send now =>
    by_cases ht : s.isTyping
    · left
      simpa [clientStep, ht] using h
    · left
      simp only [clientStep, if_neg ht] at h
      rwa [(sendStart_shape s now).2.2.2.2.2.1] at h
  | blockingArrive rid =>
    left
    rw [show clientStep s (.blockingArrive rid) = onBlockingArrive s rid from rfl,
      (onBlockingArrive_shape s rid).1.2.2.1] at h
    exact h
  | smoothingTimeout rid =>
    rw [show clientStep s (.smoothingTimeout rid) = onSmoothingTimeout s rid from rfl] at h
    rcases (onSmoothingTimeout_shape s rid).2 with he | ⟨he, hl⟩
    · left
      rwa [he] at h
    · rw [he] at h
      rcases List.mem_append.mp h with h | h
      · exact Or.inl h
      · right
        rw [List.mem_singleton.mp h]
        exact hl
  | blockingError rid =>
    left
    rw [show clientStep s (.blockingError rid) = onBlockingError s rid from rfl,
      (onBlockingError_shape s rid).1.2.2.1] at h
    exact h
  | streamDone rid =>
    rw [show clientStep s (.streamDone rid) = onStreamDone s rid from rfl] at h
    rcases (onStreamDone_shape s rid).2.2 with he | ⟨he, hl⟩
    · left
      rwa [he] at h
    · rw [he] at h
      rcases List.mem_append.mp h with h | h
      · exact Or.inl h
      · right
        rw [List.mem_singleton.mp h]
        exact hl
  | streamError rid =>
    left
    rw [show clientStep s (.streamError rid) = onStreamError s rid from rfl,
      (onStreamError_shape s rid).1.2.2.1] at h
    exact h

theorem clientStep_overtaken (s : ClientState) (e : ClientEvent) (X : RequestId)
    (hg : GoodClient s) (h : Overtaken s X) : Overtaken (clientStep s e) X := by
  obtain ⟨Y, hY, hlt⟩ := h
  rcases clientStep_latest_advance s e Y hg.1 hY with ha | ⟨Z, hZ, hZlt, _⟩
  · exact ⟨Y, ha, hlt⟩
  · exact ⟨Z, hZ, hlt.trans hZlt⟩

theorem overtaken_never_rendered (X : RequestId) :
    ∀ (es : List ClientEvent) (s : ClientState), GoodClient s → Overtaken s X →
    X ∈ (clientRun s es).rendered → X ∈ s.rendered := by
  intro es
  induction es with
  | nil =>
    intro s _ _ h
    exact h
  | cons e es ih =>
    intro s hg ho h
    have hstep := ih (clientStep s e) (clientStep_good s e hg) (clientStep_overtaken s e X hg ho) h
    rcases clientStep_rendered_src s e X hstep with h2 | h2
    · exact h2
    · exfalso
      obtain ⟨Y, hY, hlt⟩ := ho
      rw [hY, Option.some.injEq] at h2
      rw [h2] at hlt
      exact lt_irrefl _ hlt

/-! ## Claim C4: staleness monotonicity -/

/-- C4: in every reachable client state, (i) the latest-request-id
pointer only ever advances — a step either leaves it alone or replaces it
by a strictly newer id together with the strict increment of the
per-session counter, and it is never cleared; (ii) once the pointer has
moved past an id `X` (some strictly newer `Y` is latest), a response
carrying `X` is never rendered by any continuation; (iii) the staleness
check on arrival refuses to schedule a stale blocking response, and
(iv) the re-check after the smoothing delay refuses to render one. -/
theorem staleness_monotonicity (s : ClientState) (hreach : ClientReachable s) :
    (∀ (e : ClientEvent) (X : RequestId), s.latestRequestId = some X →
      (clientStep s e).latestRequestId = some X
      ∨ ∃ Y, (clientStep s e).latestRequestId = some Y ∧ X.counter < Y.counter
          ∧ (clientStep s e).requestCounter = s.requestCounter + 1)
    ∧ (∀ (X Y : RequestId), s.latestRequestId = some Y → X.counter < Y.counter →
        X ∉ s.rendered → ∀ es, X ∉ (clientRun s es).rendered)
    ∧ (∀ rid : RequestId, s.latestRequestId ≠ some rid →
        rid ∉ s.scheduled → rid ∉ (onBlockingArrive s rid).scheduled)
    ∧ (∀ rid : RequestId, s.latestRequestId ≠ some rid →
        rid ∉ s.rendered → rid ∉ (onSmoothingTimeout s rid).rendered) := by
  have hg := goodClient_reachable s hreach
  refine ⟨?_, ?_, ?_, ?_⟩
  · intro e X hX
    exact clientStep_latest_advance s e X hg.1 hX
  · intro X Y hY hlt hnr es hmem
    exact hnr (overtaken_never_rendered X es s hg ⟨Y, hY, hlt⟩ hmem)
  · intro rid hl hns hmem
    unfold onBlockingArrive at hmem
    by_cases hp : s.pendingRequestId = some rid
    · rw [if_pos hp] at hmem
      rw [if_neg (by simpa using hl)] at hmem
      exact hns (by simpa using hmem)
    · rw [if_neg hp] at hmem
      rw [if_neg hl] at hmem
      exact hns (by simpa using hmem)
  · intro rid hl hnr hmem
    unfold onSmoothingTimeout at hmem
    by_cases hs : rid ∈ s.scheduled
    · rw [if_pos hs] at hmem
      rw [if_neg (by simpa using hl)] at hmem
      exact hnr (by simpa using hmem)
    · rw [if_neg hs] at hmem
      exact hnr hmem

/-- Witness for C4: after request 1 fails and request 2 is issued, the
late-arriving response of request 1 passes through both staleness checks
and is never rendered. -/
theorem staleness_monotonicity_witness :
    ({ sessionId := "s", character := none, counter := 1, issuedAt := 1 } : RequestId) ∉
      (clientRun
        (clientRun (initClient "s" none)
          [ClientEvent.send 1,
           ClientEvent.blockingError
             { sessionId := "s", character := none, counter := 1, issuedAt := 1 },
           ClientEvent.send 2])
        [ClientEvent.blockingArrive
            { sessionId := "s", character := none, counter := 1, issuedAt := 1 },
         ClientEvent.smoothingTimeout
            { sessionId := "s", character := none, counter := 1, issuedAt := 1 }]).rendered :=
  (staleness_monotonicity _ ⟨"s", none, _, rfl⟩).2.1
    { sessionId := "s", character := none, counter := 1, issuedAt := 1 }
    { sessionId := "s", character := none, counter := 2, issuedAt := 2 }
    (by decide) (by decide) (by decide) _

/-! ## Claim C3: single-flight -/

/-- C3: when a second send B executes (entry guard passed) while `ridA`
is the session's latest id and A's response has not been rendered, the
send body first aborts and cancel-notifies the pending request — and
only then creates the new id, which is strictly newer and becomes the
new pending id; from that state A's response is never rendered by any
continuation, while B's own response, arriving non-stale, is rendered. -/
theorem single_flight (s : ClientState) (hreach : ClientReachable s)
    (ht : s.isTyping = false) (now : Nat) (ridA : RequestId)
    (hA : s.latestRequestId = some ridA) (hnr : ridA ∉ s.rendered) :
    (∀ r, s.pendingRequestId = some r →
        r ∈ (sendStart now s).1.aborted ∧ r ∈ (sendStart now s).1.cancelNotified
        ∧ (sendStart now s).2 ≠ r)
    ∧ (sendStart now s).1.pendingRequestId = some (sendStart now s).2
    ∧ ridA.counter < (sendStart now s).2.counter
    ∧ clientStep s (.send now) = (sendStart now s).1
    ∧ (∀ es, ridA ∉ (clientRun (sendStart now s).1 es).rendered)
    ∧ (sendStart now s).2 ∈
        (clientRun (sendStart now s).1
          [ClientEvent.blockingArrive (sendStart now s).2,
           ClientEvent.smoothingTimeout (sendStart now s).2]).rendered := by
  obtain ⟨hg1, hg2, hg3⟩ := goodClient_reachable s hreach
  obtain ⟨hid, hc, hl, hpe, hab, hrend, hsch, htyp, hcan⟩ := sendStart_shape s now
  have hstep : clientStep s (.send now) = (sendStart now s).1 := by
    simp [clientStep, ht]
  have hlt : ridA.counter < (sendStart now s).2.counter := by
    rw [hid]
    exact Nat.lt_succ_of_le (hg1 ridA hA)
  refine ⟨?_, hpe, hlt, hstep, ?_, ?_⟩
  · intro r hr
    have habort : s.pendingAbortController = true := by
      rw [hg2, hr]
      rfl
    obtain ⟨ha1, ha2⟩ := hcan r hr habort
    refine ⟨ha1, ha2, ?_⟩
    intro heq
    have hcnt := hg3 r hr
    rw [← heq, hid] at hcnt
    simp at hcnt
  · intro es hmem
    have hgood : GoodClient (sendStart now s).1 := by
      rw [← hstep]
      exact clientStep_good s (.send now) ⟨hg1, hg2, hg3⟩
    have hover : Overtaken (sendStart now s).1 ridA := ⟨(sendStart now s).2, hl, hlt⟩
    have := overtaken_never_rendered ridA es (sendStart now s).1 hgood hover hmem
    rw [hrend] at this
    exact hnr this
  · have e1lat : (onBlockingArrive (sendStart now s).1 (sendStart now s).2).latestRequestId
        = some (sendStart now s).2 := by
      rw [(onBlockingArrive_shape _ _).1.2.1]
      exact hl
    have e1sched : (onBlockingArrive (sendStart now s).1 (sendStart now s).2).scheduled
        = (sendStart now s).1.scheduled ++ [(sendStart now s).2] := by
      unfold onBlockingArrive
      rw [if_pos hpe]
      simp [hl]
    have hmemsched : (sendStart now s).2 ∈
        (onBlockingArrive (sendStart now s).1 (sendStart now s).2).scheduled := by
      rw [e1sched]
      exact List.mem_append_right _ (List.mem_singleton_self _)
    show (sendStart now s).2 ∈
      (onSmoothingTimeout (onBlockingArrive (sendStart now s).1 (sendStart now s).2)
        (sendStart now s).2).rendered
    unfold onSmoothingTimeout
    rw [if_pos hmemsched]
    simp [e1lat]

/-- Witness for C3 at a concrete reachable state: request 1 is pending
while the typing flag is off (a foreign stale response reset it); the
second send aborts request 1 first. -/
theorem single_flight_witness :
    ({ sessionId := "s", character := none, counter := 1, issuedAt := 1 } : RequestId) ∈
      (sendStart 9 (clientRun (initClient "s" none)
        [ClientEvent.send 1,
         ClientEvent.streamError
           { sessionId := "x", character := none, counter := 5, issuedAt := 5 }])).1.aborted :=
  ((single_flight _ ⟨"s", none, _, rfl⟩ (by decide) 9
      { sessionId := "s", character := none, counter := 1, issuedAt := 1 }
      (by decide) (by decide)).1
    { sessionId := "s", character := none, counter := 1, issuedAt := 1 } (by decide)).1

/-! ## Substring lemmas for the starter post-processing (claim C8) -/

theorem leadsWith_append (pat : List Char) :
    ∀ (x y : List Char), leadsWith pat x = true → leadsWith pat (x ++ y) = true := by
  induction pat with
  | nil =>
    intro x y h
    simp [leadsWith]
  | cons q qs ih =>
    intro x y h
    cases x with
    | nil => simp [leadsWith] at h
    | cons c cs =>
      simp only [leadsWith, Bool.and_eq_true, decide_eq_true_eq] at h ⊢
      exact ⟨h.1, ih cs y h.2⟩

theorem leadsWith_self_append (l t : List Char) : leadsWith l (l ++ t) = true := by
  induction l with
  | nil => simp [leadsWith]
  | cons c cs ih =>
    simp only [List.cons_append, leadsWith, Bool.and_eq_true, decide_eq_true_eq]
    exact ⟨trivial, ih⟩

theorem containsSub_of_leads (pat l : List Char) (h : leadsWith pat l = true) :
    containsSub pat l = true := by
  cases l with
  | nil => exact h
  | cons c cs =>
    simp only [containsSub, Bool.or_eq_true]
    exact Or.inl h

theorem containsSub_of_head (pat : List Char) :
    ∀ (p t : List Char), containsSub pat p = true → containsSub pat (p ++ t) = true := by
  intro p
  induction p with
  | nil =>
    intro t h
    exact containsSub_of_leads pat t (leadsWith_append pat [] t h)
  | cons c cs ih =>
    intro t h
    simp only [containsSub, Bool.or_eq_true] at h
    simp only [List.cons_append, containsSub, Bool.or_eq_true]
    rcases h with h | h
    · exact Or.inl (leadsWith_append pat (c :: cs) t h)
    · exact Or.inr (ih t h)

theorem containsSub_of_tail (pat : List Char) :
    ∀ (p t : List Char), containsSub pat t = true → containsSub pat (p ++ t) = true := by
  intro p
  induction p with
  | nil =>
    intro t h
    exact h
  | cons c cs ih =>
    intro t h
    simp only [List.cons_append, containsSub, Bool.or_eq_true]
    exact Or.inr (ih t h)

theorem containsSub_head_part (pat p t : List Char) (h : containsSub pat (p ++ t) = false) :
    containsSub pat p = false := by
  by_contra hc
  rw [Bool.not_eq_false] at hc
  rw [containsSub_of_head pat p t hc] at h
  cases h

theorem containsSub_tail_part (pat p t : List Char) (h : containsSub pat (p ++ t) = false) :
    containsSub pat t = false := by
  by_contra hc
  rw [Bool.not_eq_false] at hc
  rw [containsSub_of_tail pat p t hc] at h
  cases h

theorem takeBefore_head_part (pat : List Char) :
    ∀ l, ∃ t, l = takeBefore pat l ++ t := by
  intro l
  induction l with
  | nil => exact ⟨[], rfl⟩
  | cons c cs ih =>
    by_cases hl : leadsWith pat (c :: cs) = true
    · exact ⟨c :: cs, by rw [takeBefore, if_pos hl]; rfl⟩
    · obtain ⟨t, ht⟩ := ih
      refine ⟨t, ?_⟩
      rw [takeBefore, if_neg hl, List.cons_append, ← ht]

theorem takeBefore_no_match (pat : List Char) (hne : pat ≠ []) :
    ∀ l, containsSub pat (takeBefore pat l) = false := by
  intro l
  induction l with
  | nil =>
    obtain ⟨q, qs, rfl⟩ : ∃ q qs, pat = q :: qs := by
      cases pat with
      | nil => exact absurd rfl hne
      | cons q qs => exact ⟨q, qs, rfl⟩
    simp [takeBefore, containsSub, leadsWith]
  | cons c cs ih =>
    obtain ⟨q, qs, hpat⟩ : ∃ q qs, pat = q :: qs := by
      cases pat with
      | nil => exact absurd rfl hne
      | cons q qs => exact ⟨q, qs, rfl⟩
    by_cases hl : leadsWith pat (c :: cs) = true
    · rw [takeBefore, if_pos hl, hpat]
      simp [containsSub, leadsWith]
    · rw [takeBefore, if_neg hl]
      have h1 : leadsWith pat (c :: takeBefore pat cs) = false := by
        by_contra hc
        rw [Bool.not_eq_false] at hc
        obtain ⟨t, ht⟩ := takeBefore_head_part pat cs
        have := leadsWith_append pat (c :: takeBefore pat cs) t hc
        rw [List.cons_append, ← ht] at this
        exact hl this
      simp only [containsSub, Bool.or_eq_false_iff]
      exact ⟨h1, ih⟩

theorem dropWhile_tail_part (q : Char → Bool) (l : List Char) :
    ∃ p, l = p ++ l.dropWhile q :=
  ⟨l.takeWhile q, (List.takeWhile_append_dropWhile q l).symm⟩

theorem dropTrailWS_head_part : ∀ (l : List Char), ∃ t, l = dropTrailWS l ++ t := by
  intro l
  induction l with
  | nil => exact ⟨[], rfl⟩
  | cons c cs ih =>
    cases hd : dropTrailWS cs with
    | nil =>
      by_cases hw : isWS c = true
      · exact ⟨c :: cs, by simp [dropTrailWS, hd, hw]⟩
      · refine ⟨cs, ?_⟩
        simp [dropTrailWS, hd, hw]
    | cons r rs =>
      obtain ⟨t, ht⟩ := ih
      refine ⟨t, ?_⟩
      rw [show dropTrailWS (c :: cs) = c :: dropTrailWS cs from by simp [dropTrailWS, hd]]
      rw [List.cons_append, ← ht]

theorem trimJS_carry (pat l : List Char) (h : containsSub pat l = false) :
    containsSub pat (trimJS l) = false := by
  obtain ⟨p1, hp1⟩ := dropWhile_tail_part isWS l
  have h1 : containsSub pat (l.dropWhile isWS) = false :=
    containsSub_tail_part pat p1 _ (hp1 ▸ h)
  obtain ⟨t2, ht2⟩ := dropTrailWS_head_part (l.dropWhile isWS)
  exact containsSub_head_part pat _ t2 (ht2 ▸ h1)

theorem dropLast_head_part : ∀ (l : List Char), ∃ t, l = l.dropLast ++ t := by
  intro l
  induction l with
  | nil => exact ⟨[], rfl⟩
  | cons c cs ih =>
    cases cs with
    | nil => exact ⟨[c], rfl⟩
    | cons d ds =>
      obtain ⟨t, ht⟩ := ih
      refine ⟨t, ?_⟩
      rw [dropLast_cons_ne c (d :: ds) (by simp), List.cons_append, ← ht]

theorem leadsWith_punct_stop (b : List Char) (hb : ∀ c ∈ b, isPunct c = true) :
    ∀ (pat : List Char), (∀ c ∈ pat, isPunct c = false) →
    ∀ x, leadsWith pat (x ++ b) = true → leadsWith pat x = true := by
  intro pat
  induction pat with
  | nil =>
    intro _ x _
    simp [leadsWith]
  | cons q qs ih =>
    intro hpat x h
    cases x with
    | nil =>
      exfalso
      cases b with
      | nil => simp [leadsWith] at h
      | cons c bs =>
        simp only [List.nil_append, leadsWith, Bool.and_eq_true, decide_eq_true_eq] at h
        have hq := hpat q (List.mem_cons_self q qs)
        have hc := hb c (List.mem_cons_self c bs)
        rw [h.1] at hq
        rw [hq] at hc
        cases hc
    | cons y xs =>
      simp only [List.cons_append, leadsWith, Bool.and_eq_true, decide_eq_true_eq] at h ⊢
      exact ⟨h.1, ih (fun c hc => hpat c (List.mem_cons_of_mem q hc)) xs h.2⟩

theorem containsSub_all_punct (pat : List Char) (hne : pat ≠ [])
    (hpat : ∀ c ∈ pat, isPunct c = false) :
    ∀ (b : List Char), (∀ c ∈ b, isPunct c = true) → containsSub pat b = false := by
  intro b
  induction b with
  | nil =>
    intro _
    obtain ⟨q, qs, rfl⟩ : ∃ q qs, pat = q :: qs := by
      cases pat with
      | nil => exact absurd rfl hne
      | cons q qs => exact ⟨q, qs, rfl⟩
    simp [containsSub, leadsWith]
  | cons c bs ih =>
    intro hb
    simp only [containsSub, Bool.or_eq_false_iff]
    constructor
    · obtain ⟨q, qs, hpq⟩ : ∃ q qs, pat = q :: qs := by
        cases pat with
        | nil => exact absurd rfl hne
        | cons q qs => exact ⟨q, qs, rfl⟩
      have hq := hpat q (by rw [hpq]; exact List.mem_cons_self q qs)
      have hc := hb c (List.mem_cons_self c bs)
      have hqc : q ≠ c := by
        intro he
        rw [he, hc] at hq
        cases hq
      rw [hpq]
      simp [leadsWith, hqc]
    · exact ih (fun x hx => hb x (List.mem_cons_of_mem c hx))

theorem takeWhile_prop (q : Char → Bool) :
    ∀ (l : List Char) (c : Char), c ∈ l.takeWhile q → q c = true := by
  intro l
  induction l with
  | nil =>
    intro c hc
    simp [List.takeWhile] at hc
  | cons x xs ih =>
    intro c hc
    rw [List.takeWhile_cons] at hc
    by_cases hq : q x = true
    · rw [if_pos hq] at hc
      rcases List.mem_cons.mp hc with h | h
      · rw [h]
        exact hq
      · exact ih c h
    · rw [if_neg hq] at hc
      simp at hc

theorem containsSub_punct_append (pat : List Char) (hne : pat ≠ [])
    (hpat : ∀ c ∈ pat, isPunct c = false) (b : List Char)
    (hb : ∀ c ∈ b, isPunct c = true) :
    ∀ a, containsSub pat a = false → containsSub pat (a ++ b) = false := by
  intro a
  induction a with
  | nil =>
    intro _
    exact containsSub_all_punct pat hne hpat b hb
  | cons x a2 ih =>
    intro h
    simp only [containsSub, Bool.or_eq_false_iff] at h
    simp only [List.cons_append, containsSub, Bool.or_eq_false_iff]
    refine ⟨?_, ih h.2⟩
    by_contra hc
    rw [Bool.not_eq_false] at hc
    have hstop := leadsWith_punct_stop b hb pat hpat (x :: a2)
      (by rw [List.cons_append]; exact hc)
    rw [h.1] at hstop
    cases hstop

/-- Case analysis on the tail-regex replacement: either it does not
match and the string is unchanged, or the string decomposes around a
trailing `]` and the result keeps the part before the bracket plus the
trailing punctuation. -/
theorem applyTailRegex_cases (s : List Char) :
    applyTailRegex s = s
    ∨ ∃ r2, (s.reverse.dropWhile isPunct).dropWhile isWS = ']' :: r2
        ∧ applyTailRegex s
            = (r2.dropWhile isWS).reverse ++ (s.reverse.takeWhile isPunct).reverse := by
  unfold applyTailRegex
  cases hr1 : (s.reverse.dropWhile isPunct).dropWhile isWS with
  | nil =>
    left
    rfl
  | cons c r2 =>
    by_cases hcb : c = ']'
    · right
      subst hcb
      refine ⟨r2, rfl, ?_⟩
      show (if (']' : Char) = ']' then
          (r2.dropWhile isWS).reverse ++ (s.reverse.takeWhile isPunct).reverse
        else s)
        = (r2.dropWhile isWS).reverse ++ (s.reverse.takeWhile isPunct).reverse
      rw [if_pos rfl]
    · left
      show (if c = ']' then
          (r2.dropWhile isWS).reverse ++ (s.reverse.takeWhile isPunct).reverse
        else s) = s
      rw [if_neg hcb]

theorem applyTailRegex_carry (pat s : List Char) (hne : pat ≠ [])
    (hpat : ∀ c ∈ pat, isPunct c = false) (h : containsSub pat s = false) :
    containsSub pat (applyTailRegex s) = false := by
  rcases applyTailRegex_cases s with he | ⟨r2, hr1, he⟩
  · rw [he]
    exact h
  · rw [he]
    obtain ⟨p0, hp0⟩ := dropWhile_tail_part isPunct s.reverse
    obtain ⟨p1, hp1⟩ := dropWhile_tail_part isWS (s.reverse.dropWhile isPunct)
    obtain ⟨p2, hp2⟩ := dropWhile_tail_part isWS r2
    rw [hr1] at hp1
    have hsrev : s.reverse = (p0 ++ (p1 ++ (']' :: p2))) ++ (r2.dropWhile isWS) := by
      calc s.reverse = p0 ++ (s.reverse.dropWhile isPunct) := hp0
        _ = p0 ++ (p1 ++ (']' :: r2)) := by rw [hp1]
        _ = p0 ++ (p1 ++ (']' :: (p2 ++ r2.dropWhile isWS))) := by rw [← hp2]
        _ = (p0 ++ (p1 ++ (']' :: p2))) ++ (r2.dropWhile isWS) := by
              simp [List.append_assoc]
    have hs : s = (r2.dropWhile isWS).reverse ++ (p0 ++ (p1 ++ (']' :: p2))).reverse := by
      rw [← List.reverse_reverse s, hsrev, List.reverse_append]
    have hx : containsSub pat (r2.dropWhile isWS).reverse = false :=
      containsSub_head_part pat _ _ (hs ▸ h)
    have hpr : ∀ ch ∈ (s.reverse.takeWhile isPunct).reverse, isPunct ch = true := by
      intro ch hch
      rw [List.mem_reverse] at hch
      exact takeWhile_prop isPunct s.reverse ch hch
    exact containsSub_punct_append pat hne hpat _ hpr _ hx

theorem fallback_last (name : List Char) : (fallbackGreeting name).getLastD ' ' = '?' := by
  unfold fallbackGreeting
  rw [getLastD_append_ne _ starterTail (by decide) ' ']
  decide

theorem applyTailRegex_fallback (name : List Char) :
    applyTailRegex (fallbackGreeting name) = fallbackGreeting name := by
  have hrev : (fallbackGreeting name).reverse
      = '?' :: 'y' :: ("adot gniod uoy era woH .".toList
          ++ ("Hello! I".toList ++ [apostrophe] ++ "m ".toList ++ name).reverse) := by
    unfold fallbackGreeting
    rw [List.reverse_append,
      show starterTail.reverse = '?' :: 'y' :: "adot gniod uoy era woH .".toList from by decide]
    simp
  rcases applyTailRegex_cases (fallbackGreeting name) with he | ⟨r2, hr1, he⟩
  · exact he
  · exfalso
    rw [hrev] at hr1
    rw [List.dropWhile_cons, if_pos (show isPunct '?' = true from by decide)] at hr1
    rw [List.dropWhile_cons, if_neg (show ¬ isPunct 'y' = true from by decide)] at hr1
    rw [List.dropWhile_cons, if_neg (show ¬ isWS 'y' = true from by decide)] at hr1
    injection hr1 with h1 _
    exact absurd h1 (by decide)

/-! ## Claim C8: starter post-processing -/

/-- C8: every starter delivered to the client is either the deterministic
fallback greeting (which names the active character) or free of both
leaked instruction markers (`[System:` and `REQUIREMENTS`); and whenever
the marker-stripped text is empty or still contains the instruction
fragment, the fallback greeting is what is returned. -/
theorem starter_postprocessing (raw name : List Char) :
    (cleanStarter raw name = fallbackGreeting name
      ∨ (containsSub sysMarker (cleanStarter raw name) = false
          ∧ containsSub reqMarker (cleanStarter raw name) = false))
    ∧ ((stripSys raw = [] ∨ containsSub reqMarker (stripSys raw) = true) →
        cleanStarter raw name = fallbackGreeting name)
    ∧ containsSub name (fallbackGreeting name) = true := by
  have hname : containsSub name (fallbackGreeting name) = true := by
    have h1 : containsSub name (name ++ starterTail) = true :=
      containsSub_of_leads _ _ (leadsWith_self_append name starterTail)
    have h2 : fallbackGreeting name
        = ("Hello! I".toList ++ [apostrophe] ++ "m ".toList) ++ (name ++ starterTail) := by
      unfold fallbackGreeting
      simp [List.append_assoc]
    rw [h2]
    exact containsSub_of_tail name _ _ h1
  have hbrfb : bracketTrim (fallbackGreeting name) = fallbackGreeting name := by
    unfold bracketTrim
    rw [if_neg (show ¬((fallbackGreeting name).getLastD ' ' = ']') from by
      rw [fallback_last]
      decide)]
  have hfbKeep : ∀ _ : stripSys raw = [] ∨ containsSub reqMarker (stripSys raw) = true
      ∨ (stripSys raw).length < 10,
      cleanStarter raw name = fallbackGreeting name := by
    intro h2
    unfold cleanStarter fallbackOr
    rw [if_pos h2, hbrfb]
    exact applyTailRegex_fallback name
  by_cases hcond : stripSys raw = [] ∨ containsSub reqMarker (stripSys raw) = true
      ∨ (stripSys raw).length < 10
  · refine ⟨Or.inl (hfbKeep hcond), fun _ => hfbKeep hcond, hname⟩
  · push_neg at hcond
    obtain ⟨hne, hreq0, hlen⟩ := hcond
    have hreq : containsSub reqMarker (stripSys raw) = false := Bool.eq_false_iff.mpr hreq0
    have hsys : containsSub sysMarker (stripSys raw) = false := by
      unfold stripSys
      by_cases ho : containsSub sysMarker raw = true
      · rw [if_pos ho]
        exact trimJS_carry _ _ (takeBefore_no_match sysMarker (by decide) raw)
      · rw [if_neg ho]
        exact Bool.eq_false_iff.mpr ho
    have hfo : fallbackOr name (stripSys raw) = stripSys raw := by
      unfold fallbackOr
      rw [if_neg (show ¬_ from by
        push_neg
        exact ⟨hne, hreq0, hlen⟩)]
    have hkeep : ∀ pat, containsSub pat (stripSys raw) = false →
        containsSub pat (bracketTrim (stripSys raw)) = false := by
      intro pat hp
      unfold bracketTrim
      by_cases hbr : (stripSys raw).getLastD ' ' = ']'
      · rw [if_pos hbr]
        obtain ⟨t, ht⟩ := dropLast_head_part (stripSys raw)
        exact trimJS_carry _ _ (containsSub_head_part pat _ t (ht ▸ hp))
      · rw [if_neg hbr]
        exact hp
    have hclean : cleanStarter raw name = applyTailRegex (bracketTrim (stripSys raw)) := by
      unfold cleanStarter
      rw [hfo]
    refine ⟨Or.inr ⟨?_, ?_⟩, fun hx => ?_, hname⟩
    · rw [hclean]
      exact applyTailRegex_carry sysMarker _ (by decide) (by decide) (hkeep sysMarker hsys)
    · rw [hclean]
      exact applyTailRegex_carry reqMarker _ (by decide) (by decide) (hkeep reqMarker hreq)
    · rcases hx with hx | hx
      · exact absurd hx hne
      · rw [hx] at hreq
        cases hreq

/-- Witness for C8: a generated text that still contains the
`REQUIREMENTS` instruction fragment is replaced by the fallback
greeting naming the character. -/
theorem starter_postprocessing_witness :
    cleanStarter ("Sure! REQUIREMENTS: be brief".toList) ("Echo".toList)
      = fallbackGreeting ("Echo".toList) :=
  (starter_postprocessing ("Sure! REQUIREMENTS: be brief".toList) ("Echo".toList)).2.1
    (Or.inr (by decide))
